import Mathlib

/-!
Verification of the search DSL in `src/content/code/search-dsl.ts`.

The TypeScript file implements a parser-combinator query language over
issue records and a query executor.  Strings are modelled as `List Char`
(JS strings are sequences of code units; all data here is ASCII), the
hand-rolled `Either` class pair as an inductive `Either`, and the ambient
clock `Date.now()` as an explicit `now : Int` parameter threaded to the
time predicate.  Every definition mirrors the corresponding TypeScript
symbol; deviations forced by totality (the fuel in `many`) are documented
at the definition.
-/

set_option maxHeartbeats 1000000

namespace SearchDsl

/-- Whitespace recognized by JavaScript `String.prototype.trim`
(space, tab, line feed, carriage return, vertical tab, form feed). -/
def isJsWhitespace (c : Char) : Bool :=
  c == ' ' || c == '\t' || c == '\n' || c == '\r' || c == '\x0b' || c == '\x0c'

/-- JavaScript `String.prototype.trim`: remove whitespace from both ends. -/
def trim (l : List Char) : List Char :=
  ((l.dropWhile isJsWhitespace).reverse.dropWhile isJsWhitespace).reverse

/-- The `Either<L, R>` type of the source (`Left` = error, `Right` = success). -/
inductive Either (L R : Type) where
  | left (value : L)
  | right (value : R)

/-- Method `isLeft()` of the source `Either` classes. -/
def Either.isLeft : Either L R → Bool
  | .left _ => true
  | .right _ => false

/-- Method `isRight()` of the source `Either` classes. -/
def Either.isRight : Either L R → Bool
  | .left _ => false
  | .right _ => true

/-- Error codes of `ParserError` (source lines 50-55). -/
inductive ErrorCode where
  | INVALID_TOKEN
  | MISSING_VALUE
  | INVALID_STATUS
  | INVALID_TYPE
  | INVALID_TIME_FILTER
deriving DecidableEq

/-- The `ParserError` record of the source. -/
structure ParserError where
  code : ErrorCode
  message : String
  position : Nat
  input : List Char

/-- `ParserResult<T> = Either<ParserError, [T, string]>`. -/
abbrev ParserResult (α : Type) := Either ParserError (α × List Char)

/-- `Parser<T> = (input: string) => ParserResult<T>`. -/
abbrev Parser (α : Type) := List Char → ParserResult α

/-- The `lit` combinator: succeeds iff the input starts with `m`, consuming
it and trimming the remainder (source lines 60-70).  (`m` is the source's
parameter `match`, a reserved word in Lean.) -/
def lit (m : List Char) : Parser (List Char) := fun input =>
  if m.isPrefixOf input then
    .right (m, trim (input.drop m.length))
  else
    .left { code := .INVALID_TOKEN, message := "Expected literal", position := 0, input := input }

/-- The variadic `alt` combinator, with the parser array as a list: try each
parser in order, return the first success, else an invalid-token error
(source lines 72-83). -/
def alt (ps : List (Parser α)) : Parser α := fun input =>
  match ps with
  | [] => .left { code := .INVALID_TOKEN, message := "No matching alternative", position := 0, input := input }
  | p :: rest =>
    match p input with
    | .right r => .right r
    | .left _ => alt rest input

/-- The variadic `seq` combinator at arity 2, the only heterogeneous arity
besides 3 used in the source: run both parsers in order, threading the
remaining input, failing at the first failure (source lines 85-99). -/
def seq2 (p : Parser α) (q : Parser β) : Parser (α × β) := fun input =>
  match p input with
  | .left e => .left e
  | .right (a, rest₁) =>
    match q rest₁ with
    | .left e => .left e
    | .right (b, rest₂) => .right ((a, b), rest₂)

/-- The variadic `seq` combinator at arity 3 (used by `orParser`). -/
def seq3 (p : Parser α) (q : Parser β) (r : Parser γ) : Parser (α × β × γ) := fun input =>
  match p input with
  | .left e => .left e
  | .right (a, rest₁) =>
    match q rest₁ with
    | .left e => .left e
    | .right (b, rest₂) =>
      match r rest₂ with
      | .left e => .left e
      | .right (c, rest₃) => .right ((a, b, c), rest₃)

/-- The loop body of `many` (source lines 101-114), made total with a fuel
counter: each fuel step is one iteration of the source's `while (true)`
loop (trim the remaining input, run `p`, stop on failure, otherwise push
the value and continue).  `none` models a loop that runs longer than the
given fuel; for the parsers of this grammar a fuel of `input.length + 1`
is proved sufficient below. -/
def manyF (p : Parser α) : Nat → List Char → List α → Option (List α × List Char)
  | 0, _, _ => none
  | fuel + 1, remaining, acc =>
    match p (trim remaining) with
    | .left _ => some (acc, remaining)
    | .right (v, rest) => manyF p fuel rest (acc ++ [v])

/-- The `many` combinator (the spec's `zeroOrMore`): the fueled loop with
the sufficient fuel `input.length + 1`.  The `none` branch (the source
loops forever) is mapped to an error so that it cannot be mistaken for a
successful parse; it is proved unreachable for this grammar's parsers. -/
def many (p : Parser α) : Parser (List α) := fun input =>
  match manyF p (input.length + 1) input [] with
  | some (vs, rest) => .right (vs, rest)
  | none => .left { code := .INVALID_TOKEN, message := "nonterminating parser", position := 0, input := input }

/-- The `map` combinator (source lines 116-123). -/
def pmap (p : Parser α) (fn : α → β) : Parser β := fun input =>
  match p input with
  | .right (v, rest) => .right (fn v, rest)
  | .left e => .left e

/-- A `\w` word character of the JavaScript regexp `^(\w+)`:
ASCII alphanumeric or underscore. -/
def isWordChar (c : Char) : Bool :=
  c.isAlphanum || c == '_'

/-- The `word` primitive (source lines 125-130): longest nonempty prefix of
word characters, trimming the remainder. -/
def word : Parser (List Char) := fun input =>
  if (input.takeWhile isWordChar).isEmpty then
    .left { code := .INVALID_TOKEN, message := "Expected a word", position := 0, input := input }
  else
    .right (input.takeWhile isWordChar, trim (input.drop (input.takeWhile isWordChar).length))

/-- The `FilterNode` AST (source lines 136-146): leaves carry the raw value
string; `and`/`or` carry child nodes.  The source's leaves are records
`\x7b type, value \x7d`; the discriminant is the constructor here. -/
inductive FilterNode where
  | status (value : List Char)
  | author (value : List Char)
  | label (value : List Char)
  | type (value : List Char)
  | updated (value : List Char)
  | and (value : List FilterNode)
  | or (value : List FilterNode)

/-- `statusParser` (source lines 152-155): `is:` then `open` or `closed`. -/
def statusParser : Parser FilterNode :=
  pmap (seq2 (lit "is:".toList) (alt [lit "open".toList, lit "closed".toList]))
    (fun x => FilterNode.status x.2)

/-- `authorParser` (source lines 157-160): `author:` then a word. -/
def authorParser : Parser FilterNode :=
  pmap (seq2 (lit "author:".toList) word) (fun x => FilterNode.author x.2)

/-- `labelParser` (source lines 162-165): `label:` then a word. -/
def labelParser : Parser FilterNode :=
  pmap (seq2 (lit "label:".toList) word) (fun x => FilterNode.label x.2)

/-- `typeParser` (source lines 167-170): `type:` then one of the four types. -/
def typeParser : Parser FilterNode :=
  pmap (seq2 (lit "type:".toList)
      (alt [lit "bug".toList, lit "feature".toList, lit "docs".toList, lit "enhancement".toList]))
    (fun x => FilterNode.type x.2)

/-- `timeFilterParser` (source lines 172-175): `updated:` then a time bucket. -/
def timeFilterParser : Parser FilterNode :=
  pmap (seq2 (lit "updated:".toList)
      (alt [lit "hour".toList, lit "day".toList, lit "week".toList, lit "month".toList]))
    (fun x => FilterNode.updated x.2)

/-- The `alt` of the five leaf parsers as used inside `orParser`
(source lines 181-183). -/
def leafAlt : Parser FilterNode :=
  alt [statusParser, authorParser, labelParser, typeParser, timeFilterParser]

/-- `orParser` (source lines 177-193): a parenthesized group of leaf
filters; one collected filter is projected to that leaf, otherwise an
`or` node wraps the collected list. -/
def orParser : Parser FilterNode :=
  pmap (seq3 (lit "(".toList) (many leafAlt) (lit ")".toList))
    (fun x =>
      match x.2.1 with
      | [f] => f
      | filters => FilterNode.or filters)

/-- The `alt` of the six top-level alternatives as used inside
`searchQueryParser` (source line 196). -/
def topAlt : Parser FilterNode :=
  alt [statusParser, authorParser, labelParser, typeParser, timeFilterParser, orParser]

/-- `searchQueryParser` (source lines 195-206): zero or more top-level
filters; none yields the empty `and` node, one is returned directly, more
are wrapped in an `and` node. -/
def searchQueryParser : Parser FilterNode :=
  pmap (many topAlt)
    (fun filters =>
      match filters with
      | [] => FilterNode.and []
      | [f] => f
      | fs => FilterNode.and fs)

/-- The `Issue` record (source lines 11-21).  The string-typed fields are
`List Char`; `status` and `type` are, in the source, strings refined to
closed enumerations, and `updatedAt` is a millisecond timestamp. -/
structure Issue where
  id : List Char
  title : List Char
  status : List Char
  author : List Char
  labels : List (List Char)
  milestone : Option (List Char)
  assignee : Option (List Char)
  type : List Char
  updatedAt : Int

/-- `IssuePredicate = (issue: Issue) => boolean`. -/
abbrev IssuePredicate := Issue → Bool

/-- `matchAny` (source line 214). -/
def matchAny : IssuePredicate := fun _ => true

/-- `matchNone` (source line 215). -/
def matchNone : IssuePredicate := fun _ => false

/-- `isValidIssueStatus` (source lines 217-219). -/
def isValidIssueStatus (value : List Char) : Bool :=
  ["open".toList, "closed".toList].contains value

/-- `matchStatus` (source lines 220-226): validates, then compares the
`status` field for string equality; invalid values match nothing. -/
def matchStatus (status : List Char) : IssuePredicate :=
  if isValidIssueStatus status then
    fun issue => issue.status == status
  else
    matchNone

/-- `matchAuthor` (source lines 228-229). -/
def matchAuthor (author : List Char) : IssuePredicate :=
  fun issue => issue.author == author

/-- `matchLabel` (source lines 231-232): `issue.labels.includes(label)`. -/
def matchLabel (label : List Char) : IssuePredicate :=
  fun issue => issue.labels.contains label

/-- `isValidIssueType` (source lines 234-236). -/
def isValidIssueType (value : List Char) : Bool :=
  ["bug".toList, "feature".toList, "docs".toList, "enhancement".toList].contains value

/-- `matchType` (source lines 237-243). -/
def matchType (type : List Char) : IssuePredicate :=
  if isValidIssueType type then
    fun issue => issue.type == type
  else
    matchNone

/-- `isValidTimeFilter` (source lines 245-247). -/
def isValidTimeFilter (value : List Char) : Bool :=
  ["hour".toList, "day".toList, "week".toList, "month".toList].contains value

/-- `matchTime` (source lines 248-264): the ambient `Date.now()` is the
explicit parameter `now`; the switch over the validated bucket compares
`now - issue.updatedAt` against the bucket's millisecond threshold. -/
def matchTime (now : Int) (filter : List Char) : IssuePredicate :=
  if !isValidTimeFilter filter then
    matchNone
  else
    fun issue =>
      let diff := now - issue.updatedAt
      if filter == "hour".toList then decide (diff ≤ 3600000)
      else if filter == "day".toList then decide (diff ≤ 86400000)
      else if filter == "week".toList then decide (diff ≤ 604800000)
      else if filter == "month".toList then decide (diff ≤ 2592000000)
      else false

/-- The variadic `and` predicate combinator (source lines 285-286):
`preds.every(p => p(issue))`. -/
def andPred (preds : List IssuePredicate) : IssuePredicate :=
  fun issue => preds.all (fun p => p issue)

/-- The variadic `or` predicate combinator (source lines 288-289):
`preds.some(p => p(issue))`. -/
def orPred (preds : List IssuePredicate) : IssuePredicate :=
  fun issue => preds.any (fun p => p issue)

mutual

/-- `createPredicate` (source lines 266-283), with the ambient clock as the
`now` parameter.  Leaf kinds re-validate the value before dispatching to
the corresponding `match*` helper, falling back to `matchNone`. -/
def createPredicate (now : Int) : FilterNode → IssuePredicate
  | .status value => if isValidIssueStatus value then matchStatus value else matchNone
  | .author value => matchAuthor value
  | .label value => matchLabel value
  | .type value => if isValidIssueType value then matchType value else matchNone
  | .updated value => if isValidTimeFilter value then matchTime now value else matchNone
  | .and value => andPred (mapPredicates now value)
  | .or value => orPred (mapPredicates now value)

/-- `node.value.map(createPredicate)` as used in the `and`/`or` branches of
`createPredicate`. -/
def mapPredicates (now : Int) : List FilterNode → List IssuePredicate
  | [] => []
  | c :: cs => createPredicate now c :: mapPredicates now cs

end

/-- `executeQuery` (source lines 295-306), with the ambient clock as the
`now` parameter: parse, return `[]` on a parse error, otherwise filter the
issues with the compiled predicate (`Array.prototype.filter` is the stable
order-preserving filter, i.e. `List.filter`). -/
def executeQuery (now : Int) (query : List Char) (issues : List Issue) : List Issue :=
  match searchQueryParser query with
  | .left _ => []
  | .right (ast, _) => issues.filter (createPredicate now ast)

/-- A parser whose successful results never lengthen the remaining input. -/
def NonIncreasing (p : Parser α) : Prop :=
  ∀ s v rem, p s = .right (v, rem) → rem.length ≤ s.length

/-- A parser that strictly consumes input on success.  This is the property
that makes the source's `while (true)` loop in `many` terminate. -/
def Consuming (p : Parser α) : Prop :=
  ∀ s v rem, p s = .right (v, rem) → rem.length < s.length

/-- Record A of the source's `testIssues` (source line 353), with a concrete
timestamp in place of `Date.now() - 3600000`. -/
def issueA : Issue :=
  { id := "1".toList, title := "Bug in module A".toList, status := "open".toList,
    author := "alice".toList, labels := ["bug".toList], milestone := none,
    assignee := none, type := "bug".toList, updatedAt := 1000000 }

/-- Record B of the source's `testIssues` (source line 354), with a concrete
timestamp in place of `Date.now() - 86400000`. -/
def issueB : Issue :=
  { id := "2".toList, title := "Feature request".toList, status := "closed".toList,
    author := "bob".toList, labels := ["enhancement".toList], milestone := none,
    assignee := none, type := "feature".toList, updatedAt := 0 }

/-! ### Length bookkeeping for the input string. -/

theorem isPrefixOf_length_le : ∀ (m s : List Char), m.isPrefixOf s = true → m.length ≤ s.length
  | [], _, _ => by simp
  | _ :: _, [], h => by simp [List.isPrefixOf] at h
  | a :: as, b :: bs, h => by
    simp only [List.isPrefixOf, Bool.and_eq_true] at h
    have := isPrefixOf_length_le as bs h.2
    simp only [List.length_cons]
    omega

theorem takeWhile_length_le (p : Char → Bool) : ∀ (l : List Char), (l.takeWhile p).length ≤ l.length
  | [] => by simp
  | a :: l => by
    rw [List.takeWhile_cons]
    cases p a
    · simp
    · simpa using takeWhile_length_le p l

theorem trim_length_le (l : List Char) : (trim l).length ≤ l.length := by
  have h1 := (@List.dropWhile_sublist Char l isJsWhitespace).length_le
  have h2 := (@List.dropWhile_sublist Char (List.dropWhile isJsWhitespace l).reverse
      isJsWhitespace).length_le
  simp only [trim, List.length_reverse]
  simp only [List.length_reverse] at h2
  omega

/-! ### Inversion lemmas for the combinators. -/

theorem pmap_right_inv {p : Parser α} {fn : α → β} {s rem : List Char} {v : β}
    (h : pmap p fn s = .right (v, rem)) : ∃ w, p s = .right (w, rem) ∧ v = fn w := by
  unfold pmap at h
  cases hp : p s with
  | left e => rw [hp] at h; exact nomatch h
  | right wr =>
    obtain ⟨w, r⟩ := wr
    rw [hp] at h
    cases h
    exact ⟨w, rfl, rfl⟩

theorem lit_right_inv {m s rem v : List Char} (h : lit m s = .right (v, rem)) :
    m.isPrefixOf s = true ∧ v = m ∧ rem = trim (s.drop m.length) := by
  unfold lit at h
  split at h
  · cases h; exact ⟨by assumption, rfl, rfl⟩
  · exact nomatch h

theorem word_right_inv {s rem v : List Char} (h : word s = .right (v, rem)) :
    (s.takeWhile isWordChar).isEmpty = false ∧ v = s.takeWhile isWordChar ∧
      rem = trim (s.drop (s.takeWhile isWordChar).length) := by
  unfold word at h
  split at h
  · exact nomatch h
  · cases h
    exact ⟨by simp_all, rfl, rfl⟩

theorem alt_right_inv : ∀ (ps : List (Parser α)) (s : List Char) (r : α × List Char),
    alt ps s = .right r → ∃ p ∈ ps, p s = .right r
  | [], s, r, h => by simp only [alt] at h; exact nomatch h
  | p :: rest, s, r, h => by
    simp only [alt] at h
    cases hp : p s with
    | right r' =>
      rw [hp] at h
      cases h
      exact ⟨p, by simp, hp⟩
    | left e =>
      rw [hp] at h
      obtain ⟨q, hmem, hq⟩ := alt_right_inv rest s r h
      exact ⟨q, by simp [hmem], hq⟩

theorem seq2_right_inv {p : Parser α} {q : Parser β} {s rem : List Char} {a : α} {b : β}
    (h : seq2 p q s = .right ((a, b), rem)) :
    ∃ mid, p s = .right (a, mid) ∧ q mid = .right (b, rem) := by
  cases hp : p s with
  | left e => simp only [seq2, hp] at h; exact nomatch h
  | right ar =>
    obtain ⟨a', mid⟩ := ar
    cases hq : q mid with
    | left e => simp only [seq2, hp, hq] at h; exact nomatch h
    | right br =>
      obtain ⟨b', rem'⟩ := br
      simp only [seq2, hp, hq, Either.right.injEq, Prod.mk.injEq] at h
      obtain ⟨⟨rfl, rfl⟩, rfl⟩ := h
      exact ⟨mid, rfl, hq⟩

theorem seq3_right_inv {p : Parser α} {q : Parser β} {r : Parser γ} {s rem : List Char}
    {a : α} {b : β} {c : γ} (h : seq3 p q r s = .right ((a, b, c), rem)) :
    ∃ mid₁ mid₂, p s = .right (a, mid₁) ∧ q mid₁ = .right (b, mid₂) ∧ r mid₂ = .right (c, rem) := by
  cases hp : p s with
  | left e => simp only [seq3, hp] at h; exact nomatch h
  | right ar =>
    obtain ⟨a', mid₁⟩ := ar
    cases hq : q mid₁ with
    | left e => simp only [seq3, hp, hq] at h; exact nomatch h
    | right br =>
      obtain ⟨b', mid₂⟩ := br
      cases hr : r mid₂ with
      | left e => simp only [seq3, hp, hq, hr] at h; exact nomatch h
      | right cr =>
        obtain ⟨c', rem'⟩ := cr
        simp only [seq3, hp, hq, hr, Either.right.injEq, Prod.mk.injEq] at h
        obtain ⟨⟨rfl, rfl, rfl⟩, rfl⟩ := h
        exact ⟨mid₁, mid₂, rfl, hq, hr⟩

/-! ### Consumption: how much input a successful parse eats.  A `Consuming`
parser strictly shortens the input on success; this is the property that
makes the source's `while (true)` loop in `many` terminate. -/

theorem Consuming.nonIncreasing {p : Parser α} (h : Consuming p) : NonIncreasing p :=
  fun s v rem hr => le_of_lt (h s v rem hr)

theorem lit_consuming {m : List Char} (hm : m ≠ []) : Consuming (lit m) := by
  intro s v rem h
  obtain ⟨hpre, _, hrem⟩ := lit_right_inv h
  subst hrem
  have h1 := trim_length_le (s.drop m.length)
  have h2 := isPrefixOf_length_le m s hpre
  have h3 : 0 < m.length := List.length_pos.mpr hm
  simp only [List.length_drop] at h1
  omega

theorem lit_nonIncreasing (m : List Char) : NonIncreasing (lit m) := by
  intro s v rem h
  obtain ⟨hpre, _, hrem⟩ := lit_right_inv h
  subst hrem
  have h1 := trim_length_le (s.drop m.length)
  simp only [List.length_drop] at h1
  omega

theorem word_consuming : Consuming word := by
  intro s v rem h
  obtain ⟨hne, _, hrem⟩ := word_right_inv h
  subst hrem
  have h1 := trim_length_le (s.drop (s.takeWhile isWordChar).length)
  have h2 := takeWhile_length_le isWordChar s
  have h3 : 0 < (s.takeWhile isWordChar).length :=
    List.length_pos.mpr (List.isEmpty_eq_false.mp hne)
  simp only [List.length_drop] at h1
  omega

theorem alt_consuming {ps : List (Parser α)} (h : ∀ p ∈ ps, Consuming p) :
    Consuming (alt ps) := by
  intro s v rem hr
  obtain ⟨p, hmem, hp⟩ := alt_right_inv ps s (v, rem) hr
  exact h p hmem s v rem hp

theorem seq2_consuming {p : Parser α} {q : Parser β} (hp : Consuming p)
    (hq : NonIncreasing q) : Consuming (seq2 p q) := by
  intro s v rem h
  obtain ⟨a, b⟩ := v
  obtain ⟨mid, h1, h2⟩ := seq2_right_inv h
  have := hp s a mid h1
  have := hq mid b rem h2
  omega

theorem seq3_consuming {p : Parser α} {q : Parser β} {r : Parser γ} (hp : Consuming p)
    (hq : NonIncreasing q) (hr : NonIncreasing r) : Consuming (seq3 p q r) := by
  intro s v rem h
  obtain ⟨a, b, c⟩ := v
  obtain ⟨mid₁, mid₂, h1, h2, h3⟩ := seq3_right_inv h
  have := hp s a mid₁ h1
  have := hq mid₁ b mid₂ h2
  have := hr mid₂ c rem h3
  omega

theorem pmap_consuming {p : Parser α} {fn : α → β} (hp : Consuming p) :
    Consuming (pmap p fn) := by
  intro s v rem h
  obtain ⟨w, hw, _⟩ := pmap_right_inv h
  exact hp s w rem hw

/-! ### The `many` loop: its remaining input never grows, and for a
consuming parser a fuel of `input.length + 1` iterations always suffices
(each successful iteration strictly shortens the remaining input). -/

theorem manyF_rem_length {p : Parser α} (hp : NonIncreasing p) :
    ∀ (fuel : Nat) (s : List Char) (acc vs : List α) (rem : List Char),
      manyF p fuel s acc = some (vs, rem) → rem.length ≤ s.length
  | 0, s, acc, vs, rem, h => nomatch h
  | fuel + 1, s, acc, vs, rem, h => by
    rw [manyF] at h
    cases hps : p (trim s) with
    | left e =>
      rw [hps] at h
      cases h
      exact le_refl _
    | right vr =>
      obtain ⟨v, rest⟩ := vr
      rw [hps] at h
      have h1 := manyF_rem_length hp fuel rest (acc ++ [v]) vs rem h
      have h2 := hp (trim s) v rest hps
      have h3 := trim_length_le s
      omega

theorem many_nonIncreasing {p : Parser α} (hp : NonIncreasing p) : NonIncreasing (many p) := by
  intro s vs rem h
  unfold many at h
  cases hm : manyF p (s.length + 1) s [] with
  | none => rw [hm] at h; exact nomatch h
  | some vr =>
    obtain ⟨vs', rem'⟩ := vr
    rw [hm] at h
    cases h
    exact manyF_rem_length hp (s.length + 1) s [] _ _ hm

theorem manyF_isSome {p : Parser α} (hp : Consuming p) :
    ∀ (fuel : Nat) (s : List Char) (acc : List α), s.length < fuel →
      (manyF p fuel s acc).isSome = true
  | 0, s, acc, h => by omega
  | fuel + 1, s, acc, h => by
    rw [manyF]
    cases hps : p (trim s) with
    | left e => rfl
    | right vr =>
      obtain ⟨v, rest⟩ := vr
      have h1 := hp (trim s) v rest hps
      have h2 := trim_length_le s
      exact manyF_isSome hp fuel rest (acc ++ [v]) (by omega)

theorem many_right {p : Parser α} (hp : Consuming p) (s : List Char) :
    ∃ vs rem, many p s = .right (vs, rem) := by
  have h := manyF_isSome hp (s.length + 1) s [] (by omega)
  cases hm : manyF p (s.length + 1) s [] with
  | none => rw [hm] at h; exact nomatch h
  | some vr =>
    obtain ⟨vs, rem⟩ := vr
    exact ⟨vs, rem, by unfold many; rw [hm]⟩

/-! ### Consumption for the concrete grammar: every leaf parser, the
parenthesized group, and hence both `alt`s of the grammar, strictly
consume input on success. -/

theorem statusParser_consuming : Consuming statusParser :=
  pmap_consuming (seq2_consuming (lit_consuming (by decide))
    (alt_consuming (by
      intro p hp
      simp only [List.mem_cons, List.mem_singleton, List.not_mem_nil, or_false] at hp
      rcases hp with rfl | rfl <;> exact lit_consuming (by decide))).nonIncreasing)

theorem authorParser_consuming : Consuming authorParser :=
  pmap_consuming (seq2_consuming (lit_consuming (by decide)) word_consuming.nonIncreasing)

theorem labelParser_consuming : Consuming labelParser :=
  pmap_consuming (seq2_consuming (lit_consuming (by decide)) word_consuming.nonIncreasing)

theorem typeParser_consuming : Consuming typeParser :=
  pmap_consuming (seq2_consuming (lit_consuming (by decide))
    (alt_consuming (by
      intro p hp
      simp only [List.mem_cons, List.mem_singleton, List.not_mem_nil, or_false] at hp
      rcases hp with rfl | rfl | rfl | rfl <;>
        exact lit_consuming (by decide))).nonIncreasing)

theorem timeFilterParser_consuming : Consuming timeFilterParser :=
  pmap_consuming (seq2_consuming (lit_consuming (by decide))
    (alt_consuming (by
      intro p hp
      simp only [List.mem_cons, List.mem_singleton, List.not_mem_nil, or_false] at hp
      rcases hp with rfl | rfl | rfl | rfl <;>
        exact lit_consuming (by decide))).nonIncreasing)

theorem leafAlt_consuming : Consuming leafAlt :=
  alt_consuming (by
    intro p hp
    simp only [List.mem_cons, List.mem_singleton, List.not_mem_nil, or_false] at hp
    rcases hp with rfl | rfl | rfl | rfl | rfl
    · exact statusParser_consuming
    · exact authorParser_consuming
    · exact labelParser_consuming
    · exact typeParser_consuming
    · exact timeFilterParser_consuming)

theorem orParser_consuming : Consuming orParser :=
  pmap_consuming (seq3_consuming (lit_consuming (by decide))
    (many_nonIncreasing leafAlt_consuming.nonIncreasing)
    (lit_nonIncreasing _))

theorem topAlt_consuming : Consuming topAlt :=
  alt_consuming (by
    intro p hp
    simp only [List.mem_cons, List.mem_singleton, List.not_mem_nil, or_false] at hp
    rcases hp with rfl | rfl | rfl | rfl | rfl | rfl
    · exact statusParser_consuming
    · exact authorParser_consuming
    · exact labelParser_consuming
    · exact typeParser_consuming
    · exact timeFilterParser_consuming
    · exact orParser_consuming)

/-- The top-level parser always succeeds: `many` cannot fail, and its fuel
never runs out because every top-level alternative consumes input. -/
theorem searchQueryParser_right (s : List Char) :
    ∃ ast rem, searchQueryParser s = .right (ast, rem) := by
  obtain ⟨vs, rem, h⟩ := many_right topAlt_consuming s
  have hq : searchQueryParser s = .right ((fun filters =>
      match filters with
      | [] => FilterNode.and []
      | [f] => f
      | fs => FilterNode.and fs) vs, rem) := by
    unfold searchQueryParser pmap
    rw [h]
  exact ⟨_, _, hq⟩

/-! ### Executor helpers. -/

theorem executeQuery_right_eq {q : List Char} {ast : FilterNode} {rem : List Char}
    (h : searchQueryParser q = .right (ast, rem)) (now : Int) (issues : List Issue) :
    executeQuery now q issues = issues.filter (createPredicate now ast) := by
  unfold executeQuery
  rw [h]

theorem filter_of_true {p : α → Bool} (hp : ∀ a, p a = true) :
    ∀ l : List α, l.filter p = l
  | [] => rfl
  | a :: l => by rw [List.filter_cons, hp a, if_pos rfl, filter_of_true hp l]

theorem filter_idem (p : α → Bool) : ∀ l : List α, (l.filter p).filter p = l.filter p
  | [] => rfl
  | a :: l => by
    rw [List.filter_cons]
    cases hp : p a
    · rw [if_neg (by decide)]
      exact filter_idem p l
    · rw [if_pos rfl, List.filter_cons, hp, if_pos rfl, filter_idem p l]

theorem mapPredicates_eq_map (now : Int) :
    ∀ cs : List FilterNode, mapPredicates now cs = cs.map (createPredicate now)
  | [] => rfl
  | c :: cs => by rw [mapPredicates, List.map_cons, mapPredicates_eq_map now cs]

/-! ### The claims. -/

/-- Claim C1, counterexample: the claim says a malformed query such as
`is:maybe` yields the empty collection, but `executeQuery` returns the
full two-record collection, which is not empty. -/
theorem claim_C1_counterexample :
    executeQuery 0 "is:maybe".toList [issueA, issueB] = [issueA, issueB] ∧
    [issueA, issueB] ≠ ([] : List Issue) :=
  ⟨rfl, by simp⟩

/-- Claim C1, amended: `executeQuery` applied to a malformed query string
such as `is:maybe` does not throw and does not fail closed: the top-level
`zeroOrMore` succeeds consuming nothing, the query parses as the empty
`and` node, and the full record collection is returned unchanged. -/
theorem claim_C1_amended_malformed_matches_all (now : Int) (issues : List Issue) :
    executeQuery now "is:maybe".toList issues = issues := by
  have h : searchQueryParser "is:maybe".toList = .right (.and [], "is:maybe".toList) := rfl
  rw [executeQuery_right_eq h now issues]
  exact filter_of_true (fun i => rfl) issues

/-- Claim C2: the top-level parser returns a success on every input, so the
parse-failure branch of `executeQuery` (log and return empty) is
unreachable: the result is always the filter of the compiled predicate
over the input, with unconsumed text ignored. -/
theorem claim_C2_parser_never_fails (s : List Char) :
    ∃ ast rem, searchQueryParser s = .right (ast, rem) ∧
      ∀ (now : Int) (issues : List Issue),
        executeQuery now s issues = issues.filter (createPredicate now ast) := by
  obtain ⟨ast, rem, h⟩ := searchQueryParser_right s
  exact ⟨ast, rem, h, fun now issues => executeQuery_right_eq h now issues⟩

/-- Claim C4: the empty query parses to the zero-child `and` node, whose
compiled predicate holds vacuously, so `executeQuery` returns the records
unchanged and in order. -/
theorem claim_C4_empty_query_matches_all :
    searchQueryParser [] = .right (.and [], []) ∧
    ∀ (now : Int) (issues : List Issue), executeQuery now [] issues = issues := by
  refine ⟨rfl, fun now issues => ?_⟩
  rw [executeQuery_right_eq (rfl : searchQueryParser [] = .right (.and [], [])) now issues]
  exact filter_of_true (fun i => rfl) issues

/-- Claim C5: whenever the query parses successfully, `executeQuery` is
exactly the stable `List.filter` of the compiled predicate over the input
collection, preserving the original relative order. -/
theorem claim_C5_execute_is_filter (q : List Char) (ast : FilterNode) (rem : List Char)
    (h : searchQueryParser q = .right (ast, rem)) (now : Int) (issues : List Issue) :
    executeQuery now q issues = issues.filter (createPredicate now ast) := by
  unfold executeQuery
  rw [h]

/-- Claim C5, witness: the theorem instantiated at the query `is:open` and
the two-record collection of the source's tests. -/
theorem claim_C5_execute_is_filter_witness :
    executeQuery 0 "is:open".toList [issueA, issueB] =
      List.filter (createPredicate 0 (.status "open".toList)) [issueA, issueB] :=
  claim_C5_execute_is_filter "is:open".toList (.status "open".toList) [] rfl 0
    [issueA, issueB]

/-- Claim C9: filtering is idempotent at a fixed reference time: running the
same query over its own output returns that output. -/
theorem claim_C9_idempotent (now : Int) (q : List Char) (issues : List Issue) :
    executeQuery now q (executeQuery now q issues) = executeQuery now q issues := by
  unfold executeQuery
  cases h : searchQueryParser q with
  | left e => rfl
  | right ar =>
    obtain ⟨ast, rem⟩ := ar
    exact filter_idem _ issues

/-- Claim C6: leaf nodes of kind `status`, `type` and `updated` re-validate
their value against the field's closed enumeration: outside it the
compiled predicate is constant false, inside it the predicate is the
corresponding field comparison. -/
theorem claim_C6_leaf_validation (now : Int) (v : List Char) (issue : Issue) :
    (isValidIssueStatus v = false → createPredicate now (.status v) issue = false) ∧
    (isValidIssueStatus v = true → createPredicate now (.status v) issue = (issue.status == v)) ∧
    (isValidIssueType v = false → createPredicate now (.type v) issue = false) ∧
    (isValidIssueType v = true → createPredicate now (.type v) issue = (issue.type == v)) ∧
    (isValidTimeFilter v = false → createPredicate now (.updated v) issue = false) ∧
    (isValidTimeFilter v = true → createPredicate now (.updated v) issue = matchTime now v issue) := by
  refine ⟨fun h => ?_, fun h => ?_, fun h => ?_, fun h => ?_, fun h => ?_, fun h => ?_⟩ <;>
    simp [createPredicate, matchStatus, matchType, matchNone, h]

/-- Claim C6, witness: the theorem instantiated at values outside and inside
each of the three closed enumerations. -/
theorem claim_C6_leaf_validation_witness :
    createPredicate 0 (.status "maybe".toList) issueA = false ∧
    createPredicate 0 (.status "open".toList) issueA = (issueA.status == "open".toList) ∧
    createPredicate 0 (.type "wontfix".toList) issueA = false ∧
    createPredicate 0 (.type "bug".toList) issueA = (issueA.type == "bug".toList) ∧
    createPredicate 0 (.updated "decade".toList) issueA = false ∧
    createPredicate 0 (.updated "hour".toList) issueA = matchTime 0 "hour".toList issueA :=
  ⟨(claim_C6_leaf_validation 0 "maybe".toList issueA).1 rfl,
   (claim_C6_leaf_validation 0 "open".toList issueA).2.1 rfl,
   (claim_C6_leaf_validation 0 "wontfix".toList issueA).2.2.1 rfl,
   (claim_C6_leaf_validation 0 "bug".toList issueA).2.2.2.1 rfl,
   (claim_C6_leaf_validation 0 "decade".toList issueA).2.2.2.2.1 rfl,
   (claim_C6_leaf_validation 0 "hour".toList issueA).2.2.2.2.2 rfl⟩

/-- Claim C8: the predicate compiled from an `updated` leaf holds iff
`now - updatedAt` is at most the bucket's threshold, with the exact
millisecond thresholds and an inclusive comparison. -/
theorem claim_C8_time_thresholds (now : Int) (issue : Issue) :
    (createPredicate now (.updated "hour".toList) issue = true ↔
      now - issue.updatedAt ≤ 3600000) ∧
    (createPredicate now (.updated "day".toList) issue = true ↔
      now - issue.updatedAt ≤ 86400000) ∧
    (createPredicate now (.updated "week".toList) issue = true ↔
      now - issue.updatedAt ≤ 604800000) ∧
    (createPredicate now (.updated "month".toList) issue = true ↔
      now - issue.updatedAt ≤ 2592000000) := by
  refine ⟨?_, ?_, ?_, ?_⟩ <;>
    simp [createPredicate, matchTime, isValidTimeFilter]

/-- Claim C7: the `many` loop can never fail: whenever it terminates (the
loop runs within any sufficient step budget) the result is a success, and
when the parser fails on the very first attempt (made on the trimmed
input) the result is the empty sequence paired with the original input
unchanged. -/
theorem claim_C7_many_never_fails (p : Parser α) (input : List Char) :
    (∀ r, manyF p (input.length + 1) input [] = some r → many p input = .right r) ∧
    ((p (trim input)).isLeft = true → many p input = .right ([], input)) := by
  constructor
  · intro r h
    obtain ⟨vs, rest⟩ := r
    unfold many
    rw [h]
  · intro h
    have hm : manyF p (input.length + 1) input [] = some ([], input) := by
      rw [manyF]
      cases hps : p (trim input) with
      | left e => rfl
      | right vr =>
        rw [hps] at h
        simp [Either.isLeft] at h
    unfold many
    rw [hm]

/-- Claim C7, witness: the theorem instantiated at a concrete parser that
fails on the input (first conjunct via the loop's computed result on an
input it accepts). -/
theorem claim_C7_many_never_fails_witness :
    many (lit ['a']) ['b'] = .right ([], ['b']) ∧
    many (lit ['a']) ['a'] = .right ([['a']], []) :=
  ⟨(claim_C7_many_never_fails (lit ['a']) ['b']).2 rfl,
   (claim_C7_many_never_fails (lit ['a']) ['a']).1 ([['a']], []) rfl⟩

/-- Claim C10: parsing terminates on every finite input: every successful
top-level alternative (and every leaf alternative inside a group) strictly
consumes at least one character, so the `many` loops of
`searchQueryParser` and `orParser` finish within `input.length + 1`
iterations on every input. -/
theorem claim_C10_grammar_terminates :
    (∀ s v rem, topAlt s = .right (v, rem) → rem.length < s.length) ∧
    (∀ s v rem, leafAlt s = .right (v, rem) → rem.length < s.length) ∧
    (∀ s : List Char, (manyF topAlt (s.length + 1) s []).isSome = true) ∧
    (∀ s : List Char, (manyF leafAlt (s.length + 1) s []).isSome = true) :=
  ⟨topAlt_consuming, leafAlt_consuming,
   fun s => manyF_isSome topAlt_consuming (s.length + 1) s [] (by omega),
   fun s => manyF_isSome leafAlt_consuming (s.length + 1) s [] (by omega)⟩

/-- Claim C10, witness: at the query `is:open` the top-level alternative
succeeds consuming the whole input, and the fueled loop terminates. -/
theorem claim_C10_grammar_terminates_witness :
    ([] : List Char).length < "is:open".toList.length ∧
    (manyF topAlt ("is:open".toList.length + 1) "is:open".toList []).isSome = true :=
  ⟨claim_C10_grammar_terminates.1 "is:open".toList (.status "open".toList) [] rfl,
   claim_C10_grammar_terminates.2.2.1 "is:open".toList⟩

/-! ### Shape of the nodes produced by the group parser. -/

theorem leafAlt_not_or {s : List Char} {v : FilterNode} {rem : List Char}
    (h : leafAlt s = .right (v, rem)) : ∀ cs, v ≠ FilterNode.or cs := by
  obtain ⟨p, hmem, hp⟩ := alt_right_inv _ s (v, rem) h
  simp only [leafAlt, List.mem_cons, List.not_mem_nil, or_false] at hmem
  rcases hmem with rfl | rfl | rfl | rfl | rfl <;>
    · obtain ⟨w, _, rfl⟩ := pmap_right_inv hp
      intro cs hcs
      exact nomatch hcs

theorem manyF_mem_of_inv {p : Parser α} {P : α → Prop}
    (hp : ∀ s v rem, p s = .right (v, rem) → P v) :
    ∀ (fuel : Nat) (s : List Char) (acc vs : List α) (rem : List Char),
      manyF p fuel s acc = some (vs, rem) → (∀ v ∈ acc, P v) → ∀ v ∈ vs, P v
  | 0, s, acc, vs, rem, h, hacc => nomatch h
  | fuel + 1, s, acc, vs, rem, h, hacc => by
    rw [manyF] at h
    cases hps : p (trim s) with
    | left e =>
      rw [hps] at h
      cases h
      exact hacc
    | right vr =>
      obtain ⟨v, rest⟩ := vr
      rw [hps] at h
      refine manyF_mem_of_inv hp fuel rest (acc ++ [v]) vs rem h ?_
      intro w hw
      rcases List.mem_append.mp hw with hw | hw
      · exact hacc w hw
      · rw [List.mem_singleton.mp hw]
        exact hp (trim s) v rest hps

theorem many_mem_of_inv {p : Parser α} {P : α → Prop}
    (hp : ∀ s v rem, p s = .right (v, rem) → P v) {s : List Char} {vs : List α}
    {rem : List Char} (h : many p s = .right (vs, rem)) : ∀ v ∈ vs, P v := by
  unfold many at h
  cases hm : manyF p (s.length + 1) s [] with
  | none => rw [hm] at h; exact nomatch h
  | some vr =>
    obtain ⟨vs', rem'⟩ := vr
    rw [hm] at h
    cases h
    exact manyF_mem_of_inv hp (s.length + 1) s [] _ _ hm (by intro v hv; exact nomatch hv)

/-- Claim C3, counterexample: the query `()` makes the group parser collect
zero leaf filters and return an `or` node with zero children, so the
grammar does produce an `or` node with fewer than two children. -/
theorem claim_C3_counterexample :
    orParser "()".toList = .right (.or [], []) ∧ ([] : List FilterNode).length < 2 :=
  ⟨rfl, by decide⟩

/-- Claim C3, amended: every `or` node produced by the group parser has a
child count different from one (a group with exactly one matched filter is
projected to that leaf; the empty group `()` yields a zero-child `or`
node), and the compiled `or` predicate holds for a record iff at least one
child predicate holds — vacuously false for zero children. -/
theorem claim_C3_amended_or_arity :
    (∀ s ast rem, orParser s = .right (ast, rem) →
      ∀ cs, ast = FilterNode.or cs → cs.length ≠ 1) ∧
    (∀ (now : Int) (cs : List FilterNode) (issue : Issue),
      createPredicate now (.or cs) issue = true ↔
        ∃ c ∈ cs, createPredicate now c issue = true) := by
  constructor
  · intro s ast rem h cs hcs
    obtain ⟨w, hw, hast⟩ := pmap_right_inv h
    obtain ⟨a, filters, c⟩ := w
    obtain ⟨mid₁, mid₂, _, h2, _⟩ := seq3_right_inv hw
    have hall : ∀ v ∈ filters, ∀ ds, v ≠ FilterNode.or ds :=
      many_mem_of_inv (fun s' v' rem' hp => leafAlt_not_or hp) h2
    subst hast
    match filters, hall with
    | [], _ =>
      cases hcs
      simp
    | [f], hall =>
      exact absurd hcs (hall f (by simp) cs)
    | f :: g :: rest, _ =>
      cases hcs
      simp
  · intro now cs issue
    have hmap : ∀ l : List FilterNode,
        ((l.map (createPredicate now)).any fun p => p issue) =
          l.any fun c => createPredicate now c issue := by
      intro l
      induction l with
      | nil => rfl
      | cons a l ih => simp only [List.map_cons, List.any_cons, ih]
    have hor : createPredicate now (.or cs) issue =
        cs.any (fun c => createPredicate now c issue) := by
      simp only [createPredicate, orPred, mapPredicates_eq_map]
      exact hmap cs
    rw [hor, List.any_eq_true]

/-- Claim C3 amended, witness: the theorem applied to the zero-child `or`
node produced from the concrete query `()`. -/
theorem claim_C3_amended_or_arity_witness :
    ([] : List FilterNode).length ≠ 1 ∧
    (createPredicate 0 (.or []) issueA = true ↔
      ∃ c ∈ ([] : List FilterNode), createPredicate 0 c issueA = true) :=
  ⟨claim_C3_amended_or_arity.1 "()".toList (.or []) [] rfl [] rfl,
   claim_C3_amended_or_arity.2 0 [] issueA⟩

end SearchDsl
